import Mathlib

/-!
Verification of the Binary Indexed Tree (Fenwick tree) implementations in
`src/binary_indexed_tree/BIT_1.cpp` (class `BinaryIndexedTree`) and
`src/binary_indexed_tree/BIT_2_compact_1.cpp` (class `BinaryIndexedTree_Compact`).

Machine `int` values are embedded as `Int` (stored cell values, deltas, sums)
and as `Nat` for the always-nonnegative indices of `BinaryIndexedTree`
(the compact variant keeps `Int` indices, because its guard `check` is
exercised on negative indices).  `vector<int>` is embedded as `List Int`,
`operator[]` reads as `List.getD _ _ 0` and writes as `List.set`; in every
reachable execution considered by the claims the accesses are in bounds.
-/

namespace BITSpec

/-- The lowest set bit of `n`.  The C++ sources compute it as `idx & (-idx)`
on two's-complement 32-bit `int` (`BinaryIndexedTree::getPrev`/`getNext`,
`BinaryIndexedTree_Compact::lowbit`).  The theorem `lowbit_eq_land` below
proves this recursive definition equal to the machine formula
`n &&& (2 ^ 32 - n)` on the whole nonnegative machine range. -/
def lowbit (n : Nat) : Nat :=
  if n = 0 then 0
  else if n % 2 = 1 then 1
  else 2 * lowbit (n / 2)
termination_by n
decreasing_by omega

lemma lowbit_zero : lowbit 0 = 0 := by
  rw [lowbit]
  simp

lemma lowbit_odd {n : Nat} (h : n % 2 = 1) : lowbit n = 1 := by
  rw [lowbit]
  have : n ≠ 0 := by omega
  simp [this, h]

lemma lowbit_two_mul {m : Nat} (h : 0 < m) : lowbit (2 * m) = 2 * lowbit m := by
  rw [lowbit]
  have h0 : 2 * m ≠ 0 := by omega
  have h1 : ¬ (2 * m % 2 = 1) := by omega
  simp [h0, h1]

lemma lowbit_pos {n : Nat} (h : 0 < n) : 0 < lowbit n := by
  induction n using Nat.strong_induction_on with
  | _ n ih =>
    rcases Nat.even_or_odd' n with ⟨m, rfl | rfl⟩
    · have hm : 0 < m := by omega
      rw [lowbit_two_mul hm]
      have := ih m (by omega) hm
      omega
    · rw [lowbit_odd (by omega)]
      omega

lemma lowbit_le {n : Nat} : lowbit n ≤ n := by
  induction n using Nat.strong_induction_on with
  | _ n ih =>
    rcases Nat.eq_zero_or_pos n with rfl | hn
    · simp [lowbit_zero]
    rcases Nat.even_or_odd' n with ⟨m, rfl | rfl⟩
    · have hm : 0 < m := by omega
      rw [lowbit_two_mul hm]
      have := ih m (by omega)
      omega
    · rw [lowbit_odd (by omega)]
      omega

/-- Faithfulness bridge: for every value `n` representable as a nonnegative
32-bit machine `int` (in fact for the whole unsigned range `n < 2 ^ 32`),
the machine computation `n & (-n)` — which under two's complement equals
`n &&& (2 ^ 32 - n)` — agrees with `lowbit`. -/
theorem lowbit_eq_land {n : Nat} (h : n < 2 ^ 32) : n &&& (2 ^ 32 - n) = lowbit n := by
  suffices H : ∀ w n, 0 < n → n < 2 ^ w → n &&& (2 ^ w - n) = lowbit n by
    rcases Nat.eq_zero_or_pos n with rfl | hn
    · simp [lowbit_zero]
    · exact H 32 n hn h
  intro w
  induction w with
  | zero => intro n h0 h1; omega
  | succ w ih =>
    intro n h0 h1
    have key : ∀ a b : Nat, a &&& b = 2 * (a / 2 &&& b / 2) + (if a % 2 = 1 ∧ b % 2 = 1 then 1 else 0) := by
      intro a b
      have hd : (a &&& b) / 2 = a / 2 &&& b / 2 := Nat.and_div_two
      have hm : (a &&& b) % 2 = 1 ↔ a % 2 = 1 ∧ b % 2 = 1 := Nat.and_mod_two_eq_one
      by_cases hab : a % 2 = 1 ∧ b % 2 = 1
      · have := hm.mpr hab
        simp [hab]
        omega
      · have : ¬ ((a &&& b) % 2 = 1) := fun hc => hab (hm.mp hc)
        simp [hab]
        omega
    rcases Nat.even_or_odd' n with ⟨m, rfl | rfl⟩
    · -- even case: n = 2 * m
      have hm : 0 < m := by omega
      have hmlt : m < 2 ^ w := by
        have : 2 ^ (w + 1) = 2 * 2 ^ w := by ring
        omega
      rw [key]
      have e1 : 2 * m % 2 = 0 := by omega
      have e2 : (2 * m) / 2 = m := by omega
      have e3 : (2 ^ (w + 1) - 2 * m) / 2 = 2 ^ w - m := by
        have : 2 ^ (w + 1) = 2 * 2 ^ w := by ring
        omega
      rw [e2, e3]
      simp [e1]
      rw [ih m hm hmlt, lowbit_two_mul hm]
    · -- odd case: n = 2 * m + 1
      have hmlt : m < 2 ^ w := by
        have : 2 ^ (w + 1) = 2 * 2 ^ w := by ring
        omega
      rw [key]
      have e1 : (2 * m + 1) % 2 = 1 := by omega
      have e2 : (2 * m + 1) / 2 = m := by omega
      have e3 : (2 ^ (w + 1) - (2 * m + 1)) % 2 = 1 := by
        have : 2 ^ (w + 1) = 2 * 2 ^ w := by ring
        omega
      have e4 : (2 ^ (w + 1) - (2 * m + 1)) / 2 = 2 ^ w - (m + 1) := by
        have : 2 ^ (w + 1) = 2 * 2 ^ w := by ring
        omega
      rw [e2, e4]
      have hz : m &&& (2 ^ w - (m + 1)) = 0 := by
        refine Nat.eq_of_testBit_eq fun i => ?_
        rw [Nat.testBit_and, Nat.testBit_two_pow_sub_succ hmlt]
        simp
        intro hbit
        simp [hbit]
      rw [hz]
      simp [e1, e3]
      exact (lowbit_odd e1).symm

/-- `std::vector<int>::resize(n, 0)`: keeps the first `n` existing elements and
pads with zeros up to length `n`. -/
def listResize (l : List Int) (n : Nat) : List Int :=
  l.take n ++ List.replicate (n - l.length) 0

/-- The state of `class BinaryIndexedTree` (BIT_1.cpp): fields `_size` and
`_bitArray`. -/
structure BinaryIndexedTree where
  size : Nat
  bitArray : List Int

/-- `BinaryIndexedTree::getPrev`: `idx - (idx & -idx)`. -/
def getPrev (idx : Nat) : Nat := idx - lowbit idx

/-- `BinaryIndexedTree::getNext`: `idx + (idx & -idx)`. -/
def getNext (idx : Nat) : Nat := idx + lowbit idx

/-- The loop of `BinaryIndexedTree::updateTree`:
`while (idx < _size) { _bitArray[idx] += value; idx = getNext(idx); }`.
The C++ guard is `idx < _size` alone; for `idx = 0 < _size` the C++ loop never
terminates (`getNext 0 = 0`), so this total embedding adds the conjunct
`0 < idx`, on which it returns the array unchanged.  The fuel-indexed
`updateTreeFuel` below models the raw loop with the exact C++ guard, and
`updateTreeFuel_eq_go` connects the two on all indices `idx ≥ 1`. -/
def updateTreeGo (size : Nat) (arr : List Int) (idx : Nat) (value : Int) : List Int :=
  if h : 0 < idx ∧ idx < size then
    updateTreeGo size (arr.set idx (arr.getD idx 0 + value)) (getNext idx) value
  else arr
termination_by size - idx
decreasing_by
  have := lowbit_pos h.1
  simp only [getNext]
  omega

/-- `BinaryIndexedTree::updateTree`, acting on the structure. -/
def updateTree (t : BinaryIndexedTree) (idx : Nat) (value : Int) : BinaryIndexedTree :=
  { t with bitArray := updateTreeGo t.size t.bitArray idx value }

/-- Step-indexed version of the `updateTree` loop with the exact C++ guard
`idx < _size`; returns `none` when the fuel runs out before the loop exits. -/
def updateTreeFuel (size : Nat) : Nat → List Int → Nat → Int → Option (List Int)
  | 0, _, _, _ => none
  | fuel + 1, arr, idx, value =>
    if idx < size then
      updateTreeFuel size fuel (arr.set idx (arr.getD idx 0 + value)) (getNext idx) value
    else some arr

/-- The loop of `BinaryIndexedTree::getPrefixSum`:
`while (idx > 0) { sum += _bitArray[idx]; idx = getPrev(idx); }`. -/
def prefixWalk (arr : List Int) (idx : Nat) : Int :=
  if h : 0 < idx then arr.getD idx 0 + prefixWalk arr (getPrev idx) else 0
termination_by idx
decreasing_by
  have h1 := lowbit_pos h
  have h2 := lowbit_le (n := idx)
  simp only [getPrev]
  omega

/-- `BinaryIndexedTree::getPrefixSum`: returns 0 outright when
`idx >= _size`, otherwise runs the descending walk. -/
def getPrefixSum (t : BinaryIndexedTree) (idx : Nat) : Int :=
  if t.size ≤ idx then 0 else prefixWalk t.bitArray idx

/-- The subtracting loop shared by `BinaryIndexedTree::getOriginalValue` and
`BinaryIndexedTree::getSum`:
`while (predecessorIdx > ancesterIdx) { v -= _bitArray[predecessorIdx]; predecessorIdx = getPrev(predecessorIdx); }`,
returning the total amount subtracted. -/
def predecessorWalk (arr : List Int) (predecessorIdx ancesterIdx : Nat) : Int :=
  if h : ancesterIdx < predecessorIdx then
    arr.getD predecessorIdx 0 + predecessorWalk arr (getPrev predecessorIdx) ancesterIdx
  else 0
termination_by predecessorIdx
decreasing_by
  have h1 := lowbit_pos (n := predecessorIdx) (by omega)
  have h2 := lowbit_le (n := predecessorIdx)
  simp only [getPrev]
  omega

/-- `BinaryIndexedTree::getOriginalValue`. -/
def getOriginalValue (t : BinaryIndexedTree) (idx : Nat) : Int :=
  if t.size ≤ idx then 0
  else t.bitArray.getD idx 0 - predecessorWalk t.bitArray (idx - 1) (getPrev idx)

/-- The `do { sum += _bitArray[ancestorIdx]; ancestorIdx = getPrev(ancestorIdx); } while (ancestorIdx >= startIdx)`
loop of `BinaryIndexedTree::getSum`; returns the accumulated sum and the final
`ancestorIdx`.  The C++ condition is `ancestorIdx >= startIdx` alone; for
`startIdx = 0` that condition never becomes false and the C++ loop spins at
index 0 forever, so this total embedding adds the conjunct `0 < getPrev idx`,
which is implied by the C++ condition whenever `startIdx ≥ 1` (the only calls
the claims make, `getSum` being specified for `startIdx ≥ 1`). -/
def ancestorWalk (arr : List Int) (idx startIdx : Nat) : Int × Nat :=
  if h : startIdx ≤ getPrev idx ∧ 0 < getPrev idx then
    let rest := ancestorWalk arr (getPrev idx) startIdx
    (arr.getD idx 0 + rest.1, rest.2)
  else (arr.getD idx 0, getPrev idx)
termination_by idx
decreasing_by
  have h1 := lowbit_pos (n := idx) (by
    rcases Nat.eq_zero_or_pos idx with rfl | hp
    · simp [getPrev, lowbit_zero] at h
    · exact hp)
  have h2 := lowbit_le (n := idx)
  simp only [getPrev]
  omega

/-- `BinaryIndexedTree::getSum`. -/
def getSum (t : BinaryIndexedTree) (startIdx endIdx : Nat) : Int :=
  if endIdx < startIdx then 0
  else
    let w := ancestorWalk t.bitArray endIdx startIdx
    w.1 - predecessorWalk t.bitArray (startIdx - 1) w.2

/-- The loop of `BinaryIndexedTree::createFenwickTree`:
`for (idx = 1; idx < input.size(); ++idx) updateTree(idx, input[idx]);`. -/
def buildLoop (size : Nat) (input : List Int) (arr : List Int) (idx : Nat) : List Int :=
  if h : idx < size then
    buildLoop size input (updateTreeGo size arr idx (input.getD idx 0)) (idx + 1)
  else arr
termination_by size - idx

/-- `BinaryIndexedTree::createFenwickTree` applied to a freshly constructed
object (`_size = 0`, `_bitArray` empty, as established by the constructor):
sets `_size = input.size()`, resizes `_bitArray` to `_size` filled with 0,
then runs the update loop from index 1. -/
def createFenwickTree (input : List Int) : BinaryIndexedTree :=
  { size := input.length
  , bitArray := buildLoop input.length input (listResize [] input.length) 1 }

/-- The logical element array after an `update(i, v)`: position `i` is
incremented by `v`. -/
def applyUpdate (f : Nat → Int) (i : Nat) (v : Int) : Nat → Int :=
  fun j => if j = i then f j + v else f j

/-- States of `BinaryIndexedTree` reachable from a freshly created
zero-initialized array of length `size` by a sequence of valid updates
(indices in `[1, size)`), paired with the logical element array the
updates describe. -/
inductive Reachable (size : Nat) : List Int → (Nat → Int) → Prop where
  | init : Reachable size (List.replicate size 0) (fun _ => 0)
  | update {arr : List Int} {f : Nat → Int} (i : Nat) (v : Int)
      (h1 : 1 ≤ i) (h2 : i < size) (hr : Reachable size arr f) :
      Reachable size (updateTreeGo size arr i v) (applyUpdate f i v)

/-- The state of `class BinaryIndexedTree_Compact` (BIT_2_compact_1.cpp):
fields `N` and `BIT`.  Indices stay `Int` because the guard `check` is
meaningful on negative inputs. -/
structure BinaryIndexedTree_Compact where
  N : Int
  BIT : List Int

namespace Compact

/-- The freshly constructed object: `N(0), BIT(0)`. -/
def mk0 : BinaryIndexedTree_Compact := { N := 0, BIT := [] }

/-- `BinaryIndexedTree_Compact::lowbit`: `id & (-id)` on two's-complement
32-bit `int`.  For every `id` with `|id| < 2 ^ 31` the machine result is the
lowest set bit of `|id|` (as a nonnegative value); within `add`/`sum` it is
only ever applied to indices already past `check`, i.e. `1 ≤ id < N`. -/
def lowbit (id : Int) : Int := (BITSpec.lowbit id.natAbs : Int)

/-- `BinaryIndexedTree_Compact::check`: `1 <= id && id < N`. -/
def check (t : BinaryIndexedTree_Compact) (id : Int) : Bool :=
  decide (1 ≤ id ∧ id < t.N)

/-- `BinaryIndexedTree_Compact::init`: `if (size <= 0) return;` then
`N = size; BIT.resize(N, 0);`. -/
def init (t : BinaryIndexedTree_Compact) (size : Int) : BinaryIndexedTree_Compact :=
  if size ≤ 0 then t
  else { N := size, BIT := listResize t.BIT size.toNat }

lemma lowbit_pos_int {i : Int} (h : 1 ≤ i) : 1 ≤ lowbit i := by
  simp only [lowbit]
  have : 0 < BITSpec.lowbit i.natAbs := lowbit_pos (by omega)
  omega

lemma lowbit_le_int {i : Int} (h : 1 ≤ i) : lowbit i ≤ i := by
  simp only [lowbit]
  have := lowbit_le (n := i.natAbs)
  omega

/-- The loop of `BinaryIndexedTree_Compact::add`:
`for (int i = id; check(i); i += lowbit(i)) BIT[i] += num;`. -/
def addGo (N : Int) (arr : List Int) (i num : Int) : List Int :=
  if h : 1 ≤ i ∧ i < N then
    addGo N (arr.set i.toNat (arr.getD i.toNat 0 + num)) (i + lowbit i) num
  else arr
termination_by (N - i).toNat
decreasing_by
  have h1 := lowbit_pos_int h.1
  omega

/-- `BinaryIndexedTree_Compact::add`. -/
def add (t : BinaryIndexedTree_Compact) (id num : Int) : BinaryIndexedTree_Compact :=
  { t with BIT := addGo t.N t.BIT id num }

/-- The loop of `BinaryIndexedTree_Compact::sum`:
`for (int i = id; check(i); i -= lowbit(i)) ret += BIT[i];`. -/
def sumGo (N : Int) (arr : List Int) (i : Int) : Int :=
  if h : 1 ≤ i ∧ i < N then arr.getD i.toNat 0 + sumGo N arr (i - lowbit i) else 0
termination_by i.toNat
decreasing_by
  have h1 := lowbit_pos_int h.1
  have h2 := lowbit_le_int h.1
  omega

/-- `BinaryIndexedTree_Compact::sum`. -/
def sum (t : BinaryIndexedTree_Compact) (id : Int) : Int := sumGo t.N t.BIT id

end Compact

/-! ### Arithmetic of the lowest set bit

The lemmas below capture the structure of the ancestor/descendant walks:
adding a value smaller than the lowest set bit does not change the lowest
set bit of the remainder, dropping the lowest set bit at least doubles it,
and an offset below the lowest set bit packs together with its own lowest
set bit. -/

lemma lowbit_add_of_lt {g r : Nat} (h0 : 0 < r) (h1 : r < lowbit g) :
    lowbit (g + r) = lowbit r := by
  induction g using Nat.strong_induction_on generalizing r with
  | _ g ih =>
    rcases Nat.eq_zero_or_pos g with rfl | hg
    · rw [lowbit_zero] at h1
      omega
    rcases Nat.even_or_odd' g with ⟨m, rfl | rfl⟩
    · have hm : 0 < m := by omega
      rw [lowbit_two_mul hm] at h1
      rcases Nat.even_or_odd' r with ⟨s, rfl | rfl⟩
      · have hs : 0 < s := by omega
        have hsm : s < lowbit m := by omega
        have e : 2 * m + 2 * s = 2 * (m + s) := by ring
        rw [e, lowbit_two_mul (by omega), lowbit_two_mul hs, ih m (by omega) hs hsm]
      · rw [lowbit_odd (by omega : (2 * m + (2 * s + 1)) % 2 = 1),
          lowbit_odd (by omega : (2 * s + 1) % 2 = 1)]
    · rw [lowbit_odd (by omega)] at h1
      omega

lemma lowbit_down {j : Nat} (h0 : 0 < j) (h1 : 0 < j - lowbit j) :
    2 * lowbit j ≤ lowbit (j - lowbit j) := by
  induction j using Nat.strong_induction_on with
  | _ j ih =>
    rcases Nat.even_or_odd' j with ⟨m, rfl | rfl⟩
    · have hm : 0 < m := by omega
      have hle := lowbit_le (n := m)
      rw [lowbit_two_mul hm] at h1 ⊢
      have e : 2 * m - 2 * lowbit m = 2 * (m - lowbit m) := by omega
      rw [e, lowbit_two_mul (by omega)]
      have := ih m (by omega) hm (by omega)
      omega
    · rw [lowbit_odd (by omega : (2 * m + 1) % 2 = 1)] at h1 ⊢
      have hm : 0 < m := by omega
      have e : 2 * m + 1 - 1 = 2 * m := by omega
      rw [e, lowbit_two_mul hm]
      have := lowbit_pos hm
      omega

lemma add_lowbit_le {g r : Nat} (h0 : 0 < r) (h1 : r < lowbit g) :
    r + lowbit r ≤ lowbit g := by
  induction g using Nat.strong_induction_on generalizing r with
  | _ g ih =>
    rcases Nat.eq_zero_or_pos g with rfl | hg
    · rw [lowbit_zero] at h1
      omega
    rcases Nat.even_or_odd' g with ⟨m, rfl | rfl⟩
    · have hm : 0 < m := by omega
      rw [lowbit_two_mul hm] at h1 ⊢
      rcases Nat.even_or_odd' r with ⟨s, rfl | rfl⟩
      · have hs : 0 < s := by omega
        have := ih m (by omega) hs (by omega)
        rw [lowbit_two_mul hs]
        omega
      · rw [lowbit_odd (by omega : (2 * s + 1) % 2 = 1)]
        omega
    · rw [lowbit_odd (by omega)] at h1
      omega

/-- Inside the span covered by aggregate cell `i` — offsets `0 < r < lowbit i`
above `i - lowbit i` — the lowest set bit of the index is that of the offset. -/
lemma lowbit_offset {i r : Nat} (hi : 0 < i) (h0 : 0 < r) (h1 : r < lowbit i) :
    lowbit (i - lowbit i + r) = lowbit r := by
  rcases Nat.eq_zero_or_pos (i - lowbit i) with hz | hp
  · rw [hz, Nat.zero_add]
  · have hdown := lowbit_down hi hp
    exact lowbit_add_of_lt h0 (by omega)

/-- Characterization driving `updateTree`: for `j ≠ u`, cell `j` lies on the
ascending chain continued from `getNext u` exactly when it lies on the chain
from `u`, where chain membership is `j - lowbit j < u ≤ j`. -/
lemma chain_cond_iff {u j : Nat} (hu : 1 ≤ u) (hne : j ≠ u) :
    (getNext u ≤ j ∧ j - lowbit j < getNext u) ↔ (u ≤ j ∧ j - lowbit j < u) := by
  have hlbu := lowbit_pos (n := u) (by omega)
  have hlbu2 := lowbit_le (n := u)
  simp only [getNext]
  constructor
  · rintro ⟨hle, hlt⟩
    have hj0 : 0 < j := by omega
    have hlbj := lowbit_pos hj0
    have hlbj2 := lowbit_le (n := j)
    refine ⟨by omega, ?_⟩
    by_contra hcon
    push_neg at hcon
    set d := j - lowbit j with hd
    rcases Nat.lt_or_ge u d with hud | hud
    · -- u < d < u + lowbit u
      set s := d - u with hs
      have hs0 : 0 < s := by omega
      have hs1 : s < lowbit u := by omega
      have e1 : lowbit d = lowbit s := by
        have : u + s = d := by omega
        rw [← this, lowbit_add_of_lt hs0 hs1]
      have e2 : 2 * lowbit j ≤ lowbit d := lowbit_down hj0 (by omega)
      have e3 : s + lowbit s ≤ lowbit u := add_lowbit_le hs0 hs1
      omega
    · -- u = d
      have hud' : u = d := by omega
      have e2 : 2 * lowbit j ≤ lowbit u := by
        rw [hud']
        exact lowbit_down hj0 (by omega)
      omega
  · rintro ⟨hle, hlt⟩
    have hj0 : 0 < j := by omega
    have hlbj := lowbit_pos hj0
    have hlbj2 := lowbit_le (n := j)
    have hlt2 : u < j := by omega
    set g := j - lowbit j with hg
    set r := u - g with hr
    have hr0 : 0 < r := by omega
    have hr1 : r < lowbit j := by omega
    have e1 : lowbit u = lowbit r := by
      have : g + r = u := by omega
      rw [← this]
      exact lowbit_offset hj0 hr0 hr1
    have e2 : r + lowbit r ≤ lowbit j := add_lowbit_le hr0 hr1
    omega

/-! ### The effect of `updateTree` on individual aggregate cells -/

lemma updateTreeGo_length (size : Nat) (arr : List Int) (idx : Nat) (v : Int) :
    (updateTreeGo size arr idx v).length = arr.length := by
  induction arr, idx, v using updateTreeGo.induct size with
  | case1 arr idx v h ih =>
    rw [updateTreeGo, dif_pos h, ih, List.length_set]
  | case2 arr idx v h =>
    rw [updateTreeGo, dif_neg h]

lemma getD_set_self {arr : List Int} {i : Nat} {a : Int} (h : i < arr.length) :
    (arr.set i a).getD i 0 = a := by
  simp [List.getD_eq_getElem?_getD, List.getElem?_set_self h]

lemma getD_set_ne {arr : List Int} {i j : Nat} {a : Int} (h : i ≠ j) :
    (arr.set i a).getD j 0 = arr.getD j 0 := by
  simp [List.getD_eq_getElem?_getD, List.getElem?_set_ne h]

/-- `updateTree`'s loop starting at index `u ≥ 1` adds `value` to exactly the
cells `j < size` on the ascending chain of `u`, characterized by
`u ≤ j ∧ j - lowbit j < u`; every other cell is untouched. -/
lemma updateTreeGo_getD (size : Nat) (arr : List Int) (u : Nat) (v : Int) (j : Nat)
    (hu : 1 ≤ u) (hlen : arr.length = size) (hj : j < size) :
    (updateTreeGo size arr u v).getD j 0 =
      arr.getD j 0 + (if u ≤ j ∧ j - lowbit j < u then v else 0) := by
  induction arr, u, v using updateTreeGo.induct size with
  | case1 arr u v h ih =>
    rw [updateTreeGo, dif_pos h]
    have hnext : 1 ≤ getNext u := by
      simp only [getNext]
      omega
    have hlen2 : (arr.set u (arr.getD u 0 + v)).length = size := by
      rw [List.length_set, hlen]
    rw [ih hnext hlen2]
    by_cases hju : j = u
    · subst hju
      have hc1 : ¬ (getNext j ≤ j ∧ j - lowbit j < getNext j) := by
        have := lowbit_pos (n := j) h.1
        simp only [getNext]
        omega
      have hc2 : j ≤ j ∧ j - lowbit j < j := by
        have := lowbit_pos (n := j) h.1
        omega
      rw [if_neg hc1, if_pos hc2, getD_set_self (by omega)]
      ring
    · rw [getD_set_ne (fun he => hju he.symm)]
      have := chain_cond_iff (u := u) (j := j) h.1 hju
      simp only [this]
  | case2 arr u v h =>
    rw [updateTreeGo, dif_neg h]
    have : ¬ (u ≤ j ∧ j - lowbit j < u) := by omega
    rw [if_neg this]
    ring

/-- Effect of an `updateTree` at a valid index on the prefix-sum walk:
`+v` for every walk start `k ≥ u`, unchanged for `k < u`. -/
lemma prefixWalk_update (size : Nat) (arr : List Int) (u : Nat) (v : Int)
    (hu : 1 ≤ u) (hlen : arr.length = size) :
    ∀ k, k < size →
      prefixWalk (updateTreeGo size arr u v) k
        = prefixWalk arr k + (if u ≤ k then v else 0) := by
  intro k
  induction k using Nat.strong_induction_on with
  | _ k ih =>
    intro hk
    rcases Nat.eq_zero_or_pos k with rfl | hkpos
    · rw [prefixWalk, dif_neg (by omega), prefixWalk, dif_neg (by omega),
        if_neg (by omega)]
      ring
    · have hprev1 := lowbit_pos hkpos
      have hprev2 := lowbit_le (n := k)
      have hlt : getPrev k < k := by
        simp only [getPrev]
        omega
      rw [prefixWalk, dif_pos hkpos]
      conv_rhs => rw [prefixWalk, dif_pos hkpos]
      rw [updateTreeGo_getD size arr u v k hu hlen hk, ih (getPrev k) hlt (by omega)]
      simp only [getPrev]
      by_cases hc1 : u ≤ k
      · by_cases hc2 : k - lowbit k < u
        · rw [if_pos ⟨hc1, hc2⟩, if_neg (by omega), if_pos hc1]
          ring
        · rw [if_neg (by omega), if_pos (by omega), if_pos hc1]
          ring
      · rw [if_neg (by omega), if_neg (by omega), if_neg hc1]
        ring

lemma Reachable.length {size : Nat} {arr : List Int} {f : Nat → Int}
    (hr : Reachable size arr f) : arr.length = size := by
  induction hr with
  | init => exact List.length_replicate _ _
  | update i v h1 h2 hr ih => rw [updateTreeGo_length, ih]

/-! ### Splitting a prefix walk at a divergence point -/

/-- For any start `j` strictly between `i - lowbit i` and `i`, the descending
prefix-sum walk from `j` passes through exactly `i - lowbit i` (the lowest
common ancestor of `i` and its predecessors), and the part above it is the
subtracting loop of `getOriginalValue`/`getSum`. -/
lemma prefixWalk_split (arr : List Int) (i : Nat) (hi : 0 < i) :
    ∀ j, i - lowbit i ≤ j → j < i →
      prefixWalk arr j
        = predecessorWalk arr j (i - lowbit i) + prefixWalk arr (i - lowbit i) := by
  intro j
  induction j using Nat.strong_induction_on with
  | _ j ih =>
    intro hj1 hj2
    rcases Nat.eq_or_lt_of_le hj1 with heq | hlt
    · rw [← heq, predecessorWalk, dif_neg (by omega)]
      ring
    · have hj0 : 0 < j := by omega
      set g := i - lowbit i with hg
      set r := j - g with hr
      have hr0 : 0 < r := by omega
      have hr1 : r < lowbit i := by
        have := lowbit_le (n := i)
        omega
      have hlbj : lowbit j = lowbit r := by
        have e : g + r = j := by omega
        rw [← e, hg]
        exact lowbit_offset hi hr0 hr1
      have hlbr1 := lowbit_pos hr0
      have hlbr2 := lowbit_le (n := r)
      have hprev : getPrev j = g + (r - lowbit r) := by
        simp only [getPrev, hlbj]
        omega
      have hprevlt : getPrev j < j := by
        rw [hprev]
        omega
      rw [prefixWalk, dif_pos hj0, predecessorWalk, dif_pos (by omega : g < j),
        ih (getPrev j) hprevlt (by omega) (by omega)]
      ring

/-- The descending do-while loop of `getSum` accumulates exactly the part of
the prefix walk from `idx` lying at or above `startIdx`; it stops at the first
walk element below `startIdx`, which is `getPrev` of some walk element
`B ≥ startIdx`. -/
lemma ancestorWalk_spec (arr : List Int) (startIdx : Nat) (h1 : 1 ≤ startIdx) :
    ∀ idx, startIdx ≤ idx →
      prefixWalk arr idx
          = (ancestorWalk arr idx startIdx).1
            + prefixWalk arr (ancestorWalk arr idx startIdx).2
        ∧ (ancestorWalk arr idx startIdx).2 < startIdx
        ∧ ∃ B, startIdx ≤ B ∧ 0 < B
            ∧ (ancestorWalk arr idx startIdx).2 = B - lowbit B := by
  intro idx
  induction idx using Nat.strong_induction_on with
  | _ idx ih =>
    intro hidx
    have hidx0 : 0 < idx := by omega
    have hlb1 := lowbit_pos hidx0
    have hlb2 := lowbit_le (n := idx)
    have hprevlt : getPrev idx < idx := by
      simp only [getPrev]
      omega
    by_cases h : startIdx ≤ getPrev idx ∧ 0 < getPrev idx
    · rw [ancestorWalk, dif_pos h]
      obtain ⟨e1, e2, e3⟩ := ih (getPrev idx) hprevlt h.1
      refine ⟨?_, e2, e3⟩
      rw [prefixWalk, dif_pos hidx0, e1]
      ring
    · rw [ancestorWalk, dif_neg h]
      refine ⟨by rw [prefixWalk, dif_pos hidx0], ?_, idx, hidx, hidx0, rfl⟩
      simp only [not_and, Nat.not_lt] at h
      by_cases h2 : startIdx ≤ getPrev idx
      · have := h h2
        omega
      · omega

/-! ### The claims -/

/-- **C1.** For every structure built by a sequence of valid updates on a
tree with `_size = size` (capacity `size - 1`), and every valid index
`1 ≤ i < size`, the aggregate cell `_bitArray[i]` equals the sum of the
logical element values over the half-open range `(i - lowbit i, i]`; the
invariant holds after every update.  The queries (`getPrefixSum`,
`getSum`, `getOriginalValue`) are embedded as pure functions of the state,
so they leave every aggregate cell unchanged by construction. -/
theorem claim1_aggregate_invariant {size : Nat} {arr : List Int} {f : Nat → Int}
    (hr : Reachable size arr f) :
    ∀ i, 1 ≤ i → i < size →
      arr.getD i 0 = ∑ j in Finset.Ioc (i - lowbit i) i, f j := by
  induction hr with
  | init =>
    intro i h1 h2
    rw [List.getD_eq_getElem?_getD, List.getElem?_replicate_of_lt h2]
    simp
  | @update arr2 f2 u v hu1 hu2 hr ih =>
    intro i h1 h2
    rw [updateTreeGo_getD size _ u v i hu1 hr.length h2, ih i h1 h2]
    have hsplit : ∀ j, applyUpdate f2 u v j = f2 j + (if j = u then v else 0) := by
      intro j
      simp only [applyUpdate]
      by_cases h : j = u <;> simp [h]
    rw [Finset.sum_congr rfl fun j _ => hsplit j, Finset.sum_add_distrib,
      Finset.sum_ite_eq' (Finset.Ioc (i - lowbit i) i) u fun _ => v]
    simp only [Finset.mem_Ioc]
    by_cases hc : u ≤ i ∧ i - lowbit i < u
    · rw [if_pos hc, if_pos ⟨hc.2, hc.1⟩]
    · rw [if_neg hc, if_neg fun hc2 => hc ⟨hc2.2, hc2.1⟩]

/-- Closed-form witness state for the reachability hypotheses: the capacity-5
tree `[0,1,2,3,4,5]` is reached from the zero array of length 6 by the five
valid updates `update(i, i)`. -/
lemma reachable_example :
    Reachable 6
      (updateTreeGo 6 (updateTreeGo 6 (updateTreeGo 6 (updateTreeGo 6 (updateTreeGo 6
        (List.replicate 6 0) 1 1) 2 2) 3 3) 4 4) 5 5)
      (applyUpdate (applyUpdate (applyUpdate (applyUpdate (applyUpdate
        (fun _ => 0) 1 1) 2 2) 3 3) 4 4) 5 5) := by
  refine .update 5 5 (by omega) (by omega) ?_
  refine .update 4 4 (by omega) (by omega) ?_
  refine .update 3 3 (by omega) (by omega) ?_
  refine .update 2 2 (by omega) (by omega) ?_
  refine .update 1 1 (by omega) (by omega) ?_
  exact .init

/-- **C1 witness**: the invariant evaluated at cell 4 of the concrete
reachable capacity-5 tree built from the updates `update(i, i)`, `i = 1..5`. -/
theorem claim1_aggregate_invariant_witness :
    (updateTreeGo 6 (updateTreeGo 6 (updateTreeGo 6 (updateTreeGo 6 (updateTreeGo 6
        (List.replicate 6 0) 1 1) 2 2) 3 3) 4 4) 5 5).getD 4 0
      = ∑ j in Finset.Ioc (4 - lowbit 4) 4,
          (applyUpdate (applyUpdate (applyUpdate (applyUpdate (applyUpdate
            (fun _ => 0) 1 1) 2 2) 3 3) 4 4) 5 5) j :=
  claim1_aggregate_invariant reachable_example 4 (by omega) (by omega)

/-- **C2.** For every reachable state of a tree with `_size = size` (capacity
`size - 1`), every valid index `1 ≤ i < size` and every delta: after
`updateTree(i, delta)`, `getPrefixSum(k)` is exactly `delta` larger for every
`i ≤ k < size`, and unchanged for every `k < i`. -/
theorem claim2_update_shifts_prefix_sums {size : Nat} {arr : List Int} {f : Nat → Int}
    (hr : Reachable size arr f) (i : Nat) (delta : Int)
    (h1 : 1 ≤ i) (h2 : i < size) :
    (∀ k, i ≤ k → k < size →
        getPrefixSum (updateTree ⟨size, arr⟩ i delta) k
          = getPrefixSum ⟨size, arr⟩ k + delta)
    ∧ (∀ k, k < i →
        getPrefixSum (updateTree ⟨size, arr⟩ i delta) k
          = getPrefixSum ⟨size, arr⟩ k) := by
  constructor
  · intro k hk1 hk2
    simp only [updateTree, getPrefixSum]
    rw [if_neg (by omega), if_neg (by omega),
      prefixWalk_update size arr i delta h1 hr.length k hk2, if_pos hk1]
  · intro k hk
    simp only [updateTree, getPrefixSum]
    rw [if_neg (by omega), if_neg (by omega),
      prefixWalk_update size arr i delta h1 hr.length k (by omega), if_neg (by omega)]
    ring

/-- **C2 witness**: updating index 2 of the fresh capacity-5 tree by 7 raises
`getPrefixSum 3` by 7 and leaves `getPrefixSum 1` unchanged. -/
theorem claim2_update_shifts_prefix_sums_witness :
    getPrefixSum (updateTree ⟨6, List.replicate 6 0⟩ 2 7) 3
        = getPrefixSum ⟨6, List.replicate 6 0⟩ 3 + 7
    ∧ getPrefixSum (updateTree ⟨6, List.replicate 6 0⟩ 2 7) 1
        = getPrefixSum ⟨6, List.replicate 6 0⟩ 1 :=
  ⟨(claim2_update_shifts_prefix_sums Reachable.init 2 7 (by omega) (by omega)).1 3
      (by omega) (by omega),
   (claim2_update_shifts_prefix_sums Reachable.init 2 7 (by omega) (by omega)).2 1
      (by omega)⟩

/-- **C3.** For every state of a tree with `_size = size` and every index
`1 ≤ i < size`, the optimized point-value recovery `getOriginalValue(i)`
(which walks only the chain between `i - 1` and the divergence point
`getPrev i`) returns exactly `getPrefixSum(i) - getPrefixSum(i - 1)`.
This holds for arbitrary `_bitArray` contents, hence in particular for
every reachable state. -/
theorem claim3_point_value_eq_prefix_difference (size : Nat) (arr : List Int) (i : Nat)
    (h1 : 1 ≤ i) (h2 : i < size) :
    getOriginalValue ⟨size, arr⟩ i
      = getPrefixSum ⟨size, arr⟩ i - getPrefixSum ⟨size, arr⟩ (i - 1) := by
  have hlb1 := lowbit_pos (n := i) (by omega)
  have hlb2 := lowbit_le (n := i)
  simp only [getOriginalValue, getPrefixSum]
  rw [if_neg (by omega), if_neg (by omega), if_neg (by omega)]
  have hsplit := prefixWalk_split arr i (by omega) (i - 1) (by omega) (by omega)
  simp only [getPrev]
  rw [hsplit]
  conv_rhs => rw [prefixWalk, dif_pos (by omega : 0 < i)]
  simp only [getPrev]
  ring

/-- **C3 witness**: point-value recovery at index 3 of the concrete tree
built from `[0, 1, 2, 3, 4, 5]`. -/
theorem claim3_point_value_eq_prefix_difference_witness :
    getOriginalValue ⟨6, (createFenwickTree [0, 1, 2, 3, 4, 5]).bitArray⟩ 3
      = getPrefixSum ⟨6, (createFenwickTree [0, 1, 2, 3, 4, 5]).bitArray⟩ 3
        - getPrefixSum ⟨6, (createFenwickTree [0, 1, 2, 3, 4, 5]).bitArray⟩ 2 :=
  claim3_point_value_eq_prefix_difference 6 _ 3 (by omega) (by omega)

/-- **C4.** For every state of a tree with `_size = size` and all indices
`1 ≤ startIdx ≤ endIdx < size`, the single combined common-ancestor walk of
`getSum(startIdx, endIdx)` returns exactly
`getPrefixSum(endIdx) - getPrefixSum(startIdx - 1)` — the optimized walk
agrees with the two-independent-prefix-walks baseline on every valid input
and arbitrary `_bitArray` contents, hence on every reachable state. -/
theorem claim4_range_sum_eq_prefix_difference (size : Nat) (arr : List Int)
    (startIdx endIdx : Nat)
    (h1 : 1 ≤ startIdx) (h2 : startIdx ≤ endIdx) (h3 : endIdx < size) :
    getSum ⟨size, arr⟩ startIdx endIdx
      = getPrefixSum ⟨size, arr⟩ endIdx - getPrefixSum ⟨size, arr⟩ (startIdx - 1) := by
  simp only [getSum, getPrefixSum]
  rw [if_neg (by omega), if_neg (by omega), if_neg (by omega)]
  obtain ⟨e1, e2, B, hB1, hB2, hB3⟩ := ancestorWalk_spec arr startIdx h1 endIdx h2
  have hlbB1 := lowbit_pos hB2
  have hlbB2 := lowbit_le (n := B)
  have hsplit := prefixWalk_split arr B hB2 (startIdx - 1) (by omega) (by omega)
  rw [e1, ← hB3] at *
  rw [hsplit, ← hB3]
  ring

/-- **C4 witness**: `getSum(2, 4)` on the concrete tree built from
`[0, 1, 2, 3, 4, 5]` equals `getPrefixSum(4) - getPrefixSum(1)`. -/
theorem claim4_range_sum_eq_prefix_difference_witness :
    getSum ⟨6, (createFenwickTree [0, 1, 2, 3, 4, 5]).bitArray⟩ 2 4
      = getPrefixSum ⟨6, (createFenwickTree [0, 1, 2, 3, 4, 5]).bitArray⟩ 4
        - getPrefixSum ⟨6, (createFenwickTree [0, 1, 2, 3, 4, 5]).bitArray⟩ 1 :=
  claim4_range_sum_eq_prefix_difference 6 _ 2 4 (by omega) (by omega) (by omega)

/-- The concrete capacity-5 tree of `main` in BIT_1.cpp:
`createFenwickTree` on `ARR = {0, 1, 2, 3, 4, 5}`. -/
lemma createFenwickTree_example :
    createFenwickTree [0, 1, 2, 3, 4, 5]
      = { size := 6, bitArray := [0, 1, 3, 3, 10, 5] } := by
  simp [createFenwickTree, listResize, buildLoop, updateTreeGo, getNext, lowbit]

/-- **C5.** Code evaluated at the failing input: on the capacity-5 tree built
from `[0, 1, 2, 3, 4, 5]`, `getPrefixSum` at any index `≥ _size` (in
particular `capacity + 1 = 6`) returns `0` — not the full structure sum `15`
that the design contract (clamp) requires — because of the early
`if (idx >= _size) return sum;` exit.  The compact variant does the same:
`sum(id)` for `id ≥ N` fails `check` immediately and returns `0` even though
the structure holds a nonzero total. -/
theorem claim5_prefix_sum_beyond_capacity_returns_zero :
    getPrefixSum (createFenwickTree [0, 1, 2, 3, 4, 5]) 6 = 0
    ∧ getPrefixSum (createFenwickTree [0, 1, 2, 3, 4, 5]) 5 = 15
    ∧ Compact.sum (Compact.add (Compact.init Compact.mk0 6) 3 7) 6 = 0
    ∧ Compact.sum (Compact.add (Compact.init Compact.mk0 6) 3 7) 5 = 7 := by
  refine ⟨?_, ?_, ?_, ?_⟩
  · rw [createFenwickTree_example]
    simp [getPrefixSum]
  · rw [createFenwickTree_example]
    simp [getPrefixSum, prefixWalk, getPrev, lowbit]
  · simp [Compact.mk0, Compact.init, Compact.add, Compact.addGo, Compact.sum, Compact.sumGo,
      Compact.lowbit, lowbit, listResize]
  · simp [Compact.mk0, Compact.init, Compact.add, Compact.addGo, Compact.sum, Compact.sumGo,
      Compact.lowbit, lowbit, listResize]

/-- **C8.** The concrete scenario of `main`: capacity 5, build
`[_, 1, 2, 3, 4, 5]` — `getOriginalValue` round-trips the input exactly,
`getPrefixSum 5 = 15`, `getSum 2 4 = 9`, `getOriginalValue 3 = 3`, and
`getSum 4 2 = 0` because `startIdx > endIdx` is a valid empty range, not an
error. -/
theorem claim8_concrete_scenario :
    getOriginalValue (createFenwickTree [0, 1, 2, 3, 4, 5]) 1 = 1
    ∧ getOriginalValue (createFenwickTree [0, 1, 2, 3, 4, 5]) 2 = 2
    ∧ getOriginalValue (createFenwickTree [0, 1, 2, 3, 4, 5]) 3 = 3
    ∧ getOriginalValue (createFenwickTree [0, 1, 2, 3, 4, 5]) 4 = 4
    ∧ getOriginalValue (createFenwickTree [0, 1, 2, 3, 4, 5]) 5 = 5
    ∧ getPrefixSum (createFenwickTree [0, 1, 2, 3, 4, 5]) 5 = 15
    ∧ getSum (createFenwickTree [0, 1, 2, 3, 4, 5]) 2 4 = 9
    ∧ getSum (createFenwickTree [0, 1, 2, 3, 4, 5]) 4 2 = 0 := by
  rw [createFenwickTree_example]
  refine ⟨?_, ?_, ?_, ?_, ?_, ?_, ?_, ?_⟩ <;>
    simp [getOriginalValue, getPrefixSum, getSum, prefixWalk, predecessorWalk,
      ancestorWalk, getPrev, lowbit]

/-- With enough fuel (one unit more than the remaining distance to `_size`),
the raw `updateTree` loop run from any index `idx ≥ 1` exits, producing
exactly the array computed by `updateTreeGo`. -/
lemma updateTreeFuel_eq_go (size : Nat) :
    ∀ fuel arr idx v, 1 ≤ idx → size - idx < fuel →
      updateTreeFuel size fuel arr idx v = some (updateTreeGo size arr idx v) := by
  intro fuel
  induction fuel with
  | zero => intro arr idx v h1 h2; omega
  | succ fuel ih =>
    intro arr idx v h1 h2
    by_cases hlt : idx < size
    · have hlb := lowbit_pos (n := idx) (by omega)
      rw [updateTreeFuel, if_pos hlt, updateTreeGo, dif_pos ⟨by omega, hlt⟩]
      exact ih _ _ _ (by simp only [getNext]; omega) (by simp only [getNext]; omega)
    · rw [updateTreeFuel, if_neg hlt, updateTreeGo, dif_neg (by omega)]

/-- From index 0 with a non-empty array the raw `updateTree` loop never makes
progress: `getNext 0 = 0`, so no amount of fuel produces a result. -/
lemma updateTreeFuel_zero_none (size : Nat) (hs : 0 < size) :
    ∀ fuel arr v, updateTreeFuel size fuel arr 0 v = none := by
  intro fuel
  induction fuel with
  | zero => intro arr v; rw [updateTreeFuel]
  | succ fuel ih =>
    intro arr v
    rw [updateTreeFuel, if_pos hs]
    have e : getNext 0 = 0 := by simp [getNext, lowbit_zero]
    rw [e]
    exact ih _ _

/-- **C6 counterexample.** The claim says `update(0, 5)` and
`update(capacity + 1, 5)` fail with an `IndexOutOfRange` error.  The code has
no error path at all: on the concrete capacity-5 trees, the compact `add`
with index `0` or `capacity + 1 = 6` returns with the structure completely
unchanged (a silent no-op), and BIT_1's `updateTree` at `capacity + 1 = _size`
likewise returns with the array untouched.  (At index 0 BIT_1 does not fail
either: it never returns — see the claim-9 theorems.) -/
theorem claim6_counterexample :
    Compact.add (Compact.init Compact.mk0 6) 0 5 = Compact.init Compact.mk0 6
    ∧ Compact.add (Compact.init Compact.mk0 6) 6 5 = Compact.init Compact.mk0 6
    ∧ updateTree (createFenwickTree [0, 1, 2, 3, 4, 5]) 6 5
        = createFenwickTree [0, 1, 2, 3, 4, 5] := by
  refine ⟨?_, ?_, ?_⟩
  · simp [Compact.mk0, Compact.init, Compact.add, Compact.addGo, listResize]
  · simp [Compact.mk0, Compact.init, Compact.add, Compact.addGo, listResize]
  · rw [createFenwickTree_example]
    simp [updateTree, updateTreeGo]

/-- **C6 amended.** An out-of-range index given to an update is not reported:
the compact `add` leaves the structure unchanged whenever `check` fails
(any `id < 1` or `id ≥ N`), and BIT_1's `updateTree` with `idx ≥ _size`
leaves the array unchanged; no `IndexOutOfRange` error exists in the code
(and BIT_1 at index 0 with a non-empty array never terminates, per the
claim-9 theorems). -/
theorem claim6_amended (t : BinaryIndexedTree_Compact) (id num : Int)
    (size : Nat) (arr : List Int) (idx : Nat) (v : Int) (fuel : Nat) :
    (¬(1 ≤ id ∧ id < t.N) → Compact.add t id num = t)
    ∧ (size ≤ idx → updateTree ⟨size, arr⟩ idx v = ⟨size, arr⟩)
    ∧ (0 < size → updateTreeFuel size fuel arr 0 v = none) := by
  refine ⟨?_, ?_, ?_⟩
  · intro h
    simp only [Compact.add]
    rw [Compact.addGo, dif_neg h]
  · intro h
    simp only [updateTree]
    rw [updateTreeGo, dif_neg (by omega)]
  · intro h
    exact updateTreeFuel_zero_none size h fuel arr v

/-- **C6 amended witness**: out-of-range update indices 0 and 6 on concrete
capacity-5 structures. -/
theorem claim6_amended_witness :
    Compact.add { N := 6, BIT := List.replicate 6 0 } 0 5
        = { N := 6, BIT := List.replicate 6 0 }
    ∧ updateTree ⟨6, List.replicate 6 0⟩ 6 5 = ⟨6, List.replicate 6 0⟩
    ∧ updateTreeFuel 6 50 (List.replicate 6 0) 0 5 = none :=
  ⟨(claim6_amended { N := 6, BIT := List.replicate 6 0 } 0 5 6 (List.replicate 6 0) 6 5 50).1
      (by omega),
   (claim6_amended { N := 6, BIT := List.replicate 6 0 } 0 5 6 (List.replicate 6 0) 6 5 50).2.1
      (by omega),
   (claim6_amended { N := 6, BIT := List.replicate 6 0 } 0 5 6 (List.replicate 6 0) 6 5 50).2.2
      (by omega)⟩

/-- **C7 counterexample.** The claim says `create(0)` and `create(-3)` fail
with a `CapacityError`.  The compact `init` has no error path: for a
non-positive size it executes `if (size <= 0) return;` and leaves the freshly
constructed structure exactly as it was — `N = 0` with an empty buffer, the
unusable empty structure the claim says must not be silently produced. -/
theorem claim7_counterexample :
    Compact.init Compact.mk0 0 = Compact.mk0
    ∧ Compact.init Compact.mk0 (-3) = Compact.mk0 := by
  constructor <;> simp [Compact.init, Compact.mk0]

/-- **C7 amended.** `init(size)` with `size ≤ 0` silently returns, leaving the
structure unchanged (no `CapacityError` exists in the code); with `size > 0`
on a freshly constructed object it sets `N = size` and allocates the buffer
with every cell zero. -/
theorem claim7_amended (t : BinaryIndexedTree_Compact) (size : Int) :
    (size ≤ 0 → Compact.init t size = t)
    ∧ (0 < size → t.BIT = [] →
        (Compact.init t size).N = size
        ∧ (Compact.init t size).BIT = List.replicate size.toNat 0) := by
  constructor
  · intro h
    rw [Compact.init, if_pos h]
  · intro h hempty
    rw [Compact.init, if_neg (by omega)]
    refine ⟨rfl, ?_⟩
    simp [listResize, hempty]

/-- **C7 amended witness**: `init` on the fresh object with sizes `-3` and
`6`. -/
theorem claim7_amended_witness :
    Compact.init Compact.mk0 (-3) = Compact.mk0
    ∧ (Compact.init Compact.mk0 6).N = 6
    ∧ (Compact.init Compact.mk0 6).BIT = List.replicate 6 0 :=
  ⟨(claim7_amended Compact.mk0 (-3)).1 (by omega),
   ((claim7_amended Compact.mk0 6).2 (by omega) rfl).1,
   ((claim7_amended Compact.mk0 6).2 (by omega) rfl).2⟩

/-- **C9.** The `updateTree` loop of BIT_1 terminates for every starting index
`idx ≥ 1`: each iteration strictly increases the index
(`getNext idx = idx + (idx & -idx) > idx`), so fuel `_size + 1` already
suffices and the loop's result is `updateTreeGo`.  For starting index 0 with
a non-empty tree the loop never terminates: `getNext 0 = 0` leaves the index
unchanged while the guard `0 < _size` stays true, so the raw loop yields no
result for any amount of fuel. -/
theorem claim9_update_loop_termination (size : Nat) :
    (∀ idx, 1 ≤ idx → idx < getNext idx)
    ∧ (∀ arr idx v, 1 ≤ idx →
        updateTreeFuel size (size + 1) arr idx v = some (updateTreeGo size arr idx v))
    ∧ (0 < size → ∀ fuel arr v, updateTreeFuel size fuel arr 0 v = none) := by
  refine ⟨?_, ?_, ?_⟩
  · intro idx h
    have := lowbit_pos (n := idx) (by omega)
    simp only [getNext]
    omega
  · intro arr idx v h
    exact updateTreeFuel_eq_go size (size + 1) arr idx v h (by omega)
  · intro hs fuel arr v
    exact updateTreeFuel_zero_none size hs fuel arr v

/-- **C9 witness**: on a size-6 tree, index 2 strictly advances and the raw
loop finishes with fuel 7, while from index 0 even fuel 100 yields nothing. -/
theorem claim9_update_loop_termination_witness :
    2 < getNext 2
    ∧ updateTreeFuel 6 7 (List.replicate 6 0) 2 5
        = some (updateTreeGo 6 (List.replicate 6 0) 2 5)
    ∧ updateTreeFuel 6 100 (List.replicate 6 0) 0 5 = none :=
  ⟨(claim9_update_loop_termination 6).1 2 (by omega),
   (claim9_update_loop_termination 6).2.1 (List.replicate 6 0) 2 5 (by omega),
   (claim9_update_loop_termination 6).2.2 (by omega) 100 (List.replicate 6 0) 5⟩

/-- The `add` loop writes only to buffer positions in `[1, N)`: every cell
outside that window is untouched. -/
lemma addGo_getD_outside (N : Int) (arr : List Int) (i num : Int) (j : Nat)
    (hj : j = 0 ∨ N ≤ (j : Int)) :
    (Compact.addGo N arr i num).getD j 0 = arr.getD j 0 := by
  induction arr, i, num using Compact.addGo.induct N with
  | case1 arr i num h ih =>
    rw [Compact.addGo, dif_pos h]
    rw [ih]
    exact getD_set_ne (by omega)
  | case2 arr i num h =>
    rw [Compact.addGo, dif_neg h]

/-- The `sum` loop reads only buffer positions in `[1, N)`: its result is
unchanged if the array is replaced by any array agreeing on that window. -/
lemma sumGo_congr (N : Int) (arr arr2 : List Int)
    (hagree : ∀ j : Nat, 1 ≤ j → (j : Int) < N → arr.getD j 0 = arr2.getD j 0) :
    ∀ i, Compact.sumGo N arr i = Compact.sumGo N arr2 i := by
  intro i
  induction i using Compact.sumGo.induct N arr with
  | case1 x h ih =>
    rw [Compact.sumGo, dif_pos h]
    conv_rhs => rw [Compact.sumGo, dif_pos h]
    rw [ih, hagree x.toNat (by omega) (by omega)]
  | case2 x h =>
    rw [Compact.sumGo, dif_neg h]
    conv_rhs => rw [Compact.sumGo, dif_neg h]

/-- **C10.** In the compact variant every buffer access in `add` and `sum` is
guarded by `check` (true exactly when `1 ≤ id < N`): for every integer index
— including 0, negative values, and values `≥ N` — `add` returns with the
structure unchanged (it has written nothing) and `sum` returns 0; moreover
`add` never writes outside the window `[1, N)` and `sum` never reads outside
it (its value depends only on the cells in that window).  Termination for all
inputs is by construction: the embedded `add`/`sum` are total functions. -/
theorem claim10_compact_guarded_accesses (t : BinaryIndexedTree_Compact) (id num : Int) :
    (Compact.check t id = true ↔ 1 ≤ id ∧ id < t.N)
    ∧ (¬(1 ≤ id ∧ id < t.N) → Compact.add t id num = t ∧ Compact.sum t id = 0)
    ∧ (∀ j : Nat, j = 0 ∨ t.N ≤ (j : Int) →
        (Compact.add t id num).BIT.getD j 0 = t.BIT.getD j 0)
    ∧ (∀ arr2 : List Int,
        (∀ j : Nat, 1 ≤ j → (j : Int) < t.N → t.BIT.getD j 0 = arr2.getD j 0) →
        Compact.sum t id = Compact.sumGo t.N arr2 id) := by
  refine ⟨by simp [Compact.check], ?_, ?_, ?_⟩
  · intro h
    constructor
    · simp only [Compact.add]
      rw [Compact.addGo, dif_neg h]
    · simp only [Compact.sum]
      rw [Compact.sumGo, dif_neg h]
  · intro j hj
    exact addGo_getD_outside t.N t.BIT id num j hj
  · intro arr2 hagree
    exact sumGo_congr t.N t.BIT arr2 hagree id

/-- **C10 witness**: on the concrete capacity-5 structure, `check` rejects
`-2`, `add`/`sum` at `-2` are a no-op and 0, cell 0 survives an in-range
`add`, and `sum 3` is insensitive to cells outside `[1, 6)`. -/
theorem claim10_compact_guarded_accesses_witness :
    (Compact.check { N := 6, BIT := List.replicate 6 0 } (-2) = true ↔
      1 ≤ (-2 : Int) ∧ (-2 : Int) < 6)
    ∧ (Compact.add { N := 6, BIT := List.replicate 6 0 } (-2) 5
        = { N := 6, BIT := List.replicate 6 0 }
      ∧ Compact.sum { N := 6, BIT := List.replicate 6 0 } (-2) = 0)
    ∧ (Compact.add { N := 6, BIT := List.replicate 6 0 } 3 5).BIT.getD 0 0
        = (List.replicate 6 (0 : Int)).getD 0 0 :=
  ⟨(claim10_compact_guarded_accesses { N := 6, BIT := List.replicate 6 0 } (-2) 5).1,
   (claim10_compact_guarded_accesses { N := 6, BIT := List.replicate 6 0 } (-2) 5).2.1
      (by omega),
   (claim10_compact_guarded_accesses { N := 6, BIT := List.replicate 6 0 } 3 5).2.2.1 0
      (Or.inl rfl)⟩

end BITSpec
